import Mathlib

/-!
Verification of the knitit even-distribution / minimal-repeat engine.

The JavaScript source exists in two near-duplicate variants:
* `part_000` — integer-count placement (`generateEvenDistribution` returns a
  number per slot) plus `findMinimalRepeat`, `describeDistribution`,
  `calculatePickup` (no overflow guard) and the `gcd` / `simplifyRatio`
  rational reducer;
* `part_001` — boolean placement (`generateEvenDistribution` returns
  `true`/`false` per slot) and a `calculatePickup` that rejects pick-up
  counts that reach the row count.

Machine numbers are modelled exactly: the nonnegative-integer loops use `ℕ`
(with `Math.round (p / q)` for `p q : ℕ`, `q > 0`, written as
`(2 * p + q) / (2 * q)` in natural division, i.e. `⌊p / q + 1 / 2⌋`), and the
`gcd` entry point, whose JavaScript inputs are arbitrary numbers that get
`Math.round`ed first, is modelled on `ℚ` with the rounding made explicit.
-/

namespace Knitit

/-- `Math.round (p / q)` for `p q : ℕ`: since `Math.round x = ⌊x + 1/2⌋`, this
is `⌊(2 * p + q) / (2 * q)⌋`, i.e. natural division. (For `q = 0` the source
would produce `NaN`; every caller has `q > 0`.) -/
def jsRound (p q : ℕ) : ℕ :=
  (2 * p + q) / (2 * q)

/-- The cumulative target of the distribution loop: `Math.round (r * m / s)`,
the value of `stitchesPlaced` after `r` iterations. Proof vocabulary only. -/
def cumTarget (m s r : ℕ) : ℕ :=
  jsRound (r * m) s

/-- Loop body of `generateEvenDistribution` from `part_000` (integer counts).
`fuel` counts the remaining iterations (`totalRows - row`), `placed` is the
accumulator `stitchesPlaced`. Each iteration computes
`expected = Math.round ((row + 1) * totalStitches / totalRows)` and emits
`expected - placed`. -/
def genEvenAux (items slots : ℕ) : ℕ → ℕ → ℤ → List ℤ
  | 0, _, _ => []
  | fuel + 1, row, placed =>
    let expected : ℤ := (jsRound ((row + 1) * items) slots : ℕ)
    (expected - placed) :: genEvenAux items slots fuel (row + 1) expected

/-- `generateEvenDistribution` from `part_000`: the integer-count placement.
The loop runs for `row = 0, …, slots - 1` starting from `stitchesPlaced = 0`. -/
def generateEvenDistribution (items slots : ℕ) : List ℤ :=
  genEvenAux items slots slots 0 0

/-- Loop body of `generateEvenDistribution` from `part_001` (boolean variant):
same cumulative target, but a slot only receives `true` when
`expected > placed`, and then `placed` increments by one. -/
def genBoolAux (items slots : ℕ) : ℕ → ℕ → ℕ → List Bool
  | 0, _, _ => []
  | fuel + 1, row, placed =>
    let expected : ℕ := jsRound ((row + 1) * items) slots
    if placed < expected then
      true :: genBoolAux items slots fuel (row + 1) (placed + 1)
    else
      false :: genBoolAux items slots fuel (row + 1) placed

/-- `generateEvenDistribution` from `part_001`: the boolean placement. -/
def generateEvenDistributionB (items slots : ℕ) : List Bool :=
  genBoolAux items slots slots 0 0

/-- A maximal run of equal values. In `part_000` the fields are called
`stitchesPerRow` / `rows` in `describeDistribution` and `stitches` / `rows` in
`findMinimalRepeat`; both hold a value and a length. -/
structure Run where
  stitches : ℤ
  rows : ℕ
deriving DecidableEq

/-- The run scan shared (up to loop style) by `describeDistribution`'s
`for`-loop and `findMinimalRepeat`'s nested `while`-loops: `cur` is the value
of the open run, `len` its length so far; a differing element closes the run. -/
def runScanAux : ℤ → ℕ → List ℤ → List Run
  | cur, len, [] => [⟨cur, len⟩]
  | cur, len, x :: xs =>
    if x = cur then runScanAux cur (len + 1) xs
    else ⟨cur, len⟩ :: runScanAux x 1 xs

/-- Run-length encoding of a sequence, as computed by the source's scans:
the scan starts on the first element with length 1. (On an empty sequence the
JavaScript loop would read `distribution[0]` as `undefined`; all call sites
pass `slots ≥ 1` elements, and the claims are about non-empty sequences.) -/
def describeRuns : List ℤ → List Run
  | [] => []
  | x :: xs => runScanAux x 1 xs

/-- Result record of `describeDistribution` from `part_000`. The `runCounts`
string-keyed tally is presentation-only and not modelled. -/
structure DescribeResult where
  distribution : List ℤ
  runs : List Run
  totalStitches : ℕ
  totalRows : ℕ
deriving DecidableEq

/-- `describeDistribution` from `part_000`. -/
def describeDistribution (totalStitches totalRows : ℕ) : DescribeResult :=
  let distribution := generateEvenDistribution totalStitches totalRows
  { distribution := distribution
    runs := describeRuns distribution
    totalStitches := totalStitches
    totalRows := totalRows }

/-- JavaScript pluralization `cond !== 1 ? 's' : ''`. -/
def plural (n : ℕ) : String :=
  if n ≠ 1 then "s" else ""

/-- One fragment of the multi-run description in `findMinimalRepeat`
(`part_000`). -/
def runPhrase (s : Run) : String :=
  if s.stitches = 0 then "skip " ++ toString s.rows
  else if s.rows = 1 then "pick up " ++ toString s.stitches
  else "pick up " ++ toString s.stitches ++ " × " ++ toString s.rows ++ " rows"

/-- The description block of `findMinimalRepeat` (`part_000`), as a function
of the computed `sequences`: a single run gets a sentence, several runs get
arrow-joined fragments. -/
def describeSequences (sequences : List Run) : String :=
  match sequences with
  | [s] =>
    if s.stitches = 0 then
      "Skip " ++ toString s.rows ++ " row" ++ plural s.rows
    else if s.stitches = 1 then
      "Pick up 1 from each of " ++ toString s.rows ++ " row" ++ plural s.rows
    else
      "Pick up " ++ toString s.stitches ++ " from each of " ++ toString s.rows
        ++ " row" ++ plural s.rows
  | _ => String.intercalate " → " (sequences.map runPhrase)

/-- The `while (b !== 0)` Euclid loop of the source's `gcd`, on integers.
JavaScript `%` is the truncated remainder (sign of the dividend), i.e.
`Int.tmod`. `fuel` bounds the iteration count; since `|a tmod b| < |b|` for
`b ≠ 0`, `|b| + 1` iterations always reach `b = 0`. -/
def gcdAux : ℕ → ℤ → ℤ → ℤ
  | 0, a, _ => a
  | fuel + 1, a, b => if b = 0 then a else gcdAux fuel b (Int.tmod a b)

/-- The source's `gcd` after `Math.round`: its loop on two integers. Integer
arguments pass through `Math.round` unchanged, so this is exactly `gcd` at the
integer call sites (`findMinimalRepeat`, `calculateDistribution`). -/
def gcdInt (a b : ℤ) : ℤ :=
  gcdAux (b.natAbs + 1) a b

/-- `Math.round` on an arbitrary (finite) number, modelled on `ℚ`:
`Math.round x = ⌊x + 1/2⌋`, written on the reduced fraction as the floor
division `(2 * num + den) / (2 * den)` (see `jsRoundQ_eq_floor` below). -/
def jsRoundQ (x : ℚ) : ℤ :=
  (2 * x.num + (x.den : ℤ)) / (2 * (x.den : ℤ))

/-- The source's `gcd(a, b)` on arbitrary numeric inputs: both arguments are
`Math.round`ed, then the Euclid loop runs. -/
def gcdQ (a b : ℚ) : ℤ :=
  gcdInt (jsRoundQ a) (jsRoundQ b)

/-- Result record of `findMinimalRepeat` (`part_000`). -/
structure RepeatResult where
  cycleStitches : ℕ
  cycleRows : ℕ
  repeats : ℕ
  pattern : List ℤ
  sequences : List Run
  description : String
deriving DecidableEq

/-- `findMinimalRepeat` from `part_000`: reduce `(totalStitches, totalRows)`
by their gcd, re-run the generator on the reduced pair, scan it into runs and
render the description. The source's `totalStitches / g` is exact (the gcd
divides both arguments), matching natural division; `gcdInt` on the two
nonnegative integers is nonnegative, so `toNat` is the identity on its
result (see `gcdInt_natCast`). -/
def findMinimalRepeat (totalStitches totalRows : ℕ) : RepeatResult :=
  let g : ℕ := (gcdInt totalStitches totalRows).toNat
  let cycleStitches := totalStitches / g
  let cycleRows := totalRows / g
  let pattern := generateEvenDistribution cycleStitches cycleRows
  let sequences := describeRuns pattern
  { cycleStitches := cycleStitches
    cycleRows := cycleRows
    repeats := g
    pattern := pattern
    sequences := sequences
    description := describeSequences sequences }

/-- `calculateAdjustedPickupRatio` (both variants): `null` when any input is
falsy (`0`), otherwise the ratio
`(patternStitches * personalGaugeH / patternGaugeH) /
 (patternRows * personalGaugeV / patternGaugeV)`. Only the `ratio` field is
consumed by the pickup flows, so only it is modelled. -/
def calculateAdjustedPickupRatio (patternStitches patternRows : ℕ)
    (personalGaugeH personalGaugeV patternGaugeH patternGaugeV : ℚ) : Option ℚ :=
  if patternStitches = 0 ∨ patternRows = 0 ∨ personalGaugeH = 0 ∨ personalGaugeV = 0 ∨
      patternGaugeH = 0 ∨ patternGaugeV = 0 then none
  else
    some ((patternStitches * (personalGaugeH / patternGaugeH)) /
      (patternRows * (personalGaugeV / patternGaugeV)))

/-- Decision flow of `calculatePickup` in `part_001` (error messages
abbreviated; the source's are longer user-facing sentences). On success the
result is the `(totalStitchesToPickup, totalRows)` pair handed to the
distribution engine (`describeDistribution` / `findMinimalRepeat`). This
variant rejects `totalStitchesToPickup >= totalRows` before the engine runs. -/
def calculatePickupFlow1 (personalGaugeH personalGaugeV patternGaugeH patternGaugeV : ℚ)
    (patternStitches patternRows totalRows : ℕ) : Except String (ℕ × ℕ) :=
  if patternStitches = 0 ∨ patternRows = 0 then .error "missing pick-up instruction"
  else if totalRows = 0 then .error "missing total rows"
  else
    match calculateAdjustedPickupRatio patternStitches patternRows
        personalGaugeH personalGaugeV patternGaugeH patternGaugeV with
    | none => .error "could not calculate adjusted ratio"
    | some ratio =>
      let totalStitchesToPickup : ℤ := jsRoundQ (totalRows * ratio)
      if (totalRows : ℤ) ≤ totalStitchesToPickup then
        .error "pick-up count exceeds row count"
      else if totalStitchesToPickup < 1 then
        .error "pick-up count too low"
      else
        .ok (totalStitchesToPickup.toNat, totalRows)

/-- Decision flow of `calculatePickup` in `part_000` (the three-tab variant):
gauge presence is checked first, and the only numeric guard on the computed
count is `totalStitchesToPickup < 1` — there is no `>= totalRows` rejection,
so the distribution engine also runs when the count reaches or exceeds the
row count. -/
def calculatePickupFlow0 (personalGaugeH personalGaugeV patternGaugeH patternGaugeV : ℚ)
    (patternStitches patternRows totalRows : ℕ) : Except String (ℕ × ℕ) :=
  if personalGaugeH = 0 ∨ personalGaugeV = 0 ∨ patternGaugeH = 0 ∨ patternGaugeV = 0 then
    .error "missing gauge values"
  else if patternStitches = 0 ∨ patternRows = 0 then .error "missing pick-up instruction"
  else if totalRows = 0 then .error "missing total rows"
  else
    match calculateAdjustedPickupRatio patternStitches patternRows
        personalGaugeH personalGaugeV patternGaugeH patternGaugeV with
    | none => .error "could not calculate adjusted ratio"
    | some ratio =>
      let totalStitchesToPickup : ℤ := jsRoundQ (totalRows * ratio)
      if totalStitchesToPickup < 1 then
        .error "pick-up count too low"
      else
        .ok (totalStitchesToPickup.toNat, totalRows)

/-! ### Arithmetic of the cumulative rounding target -/

theorem cumTarget_zero (m s : ℕ) : cumTarget m s 0 = 0 := by
  unfold cumTarget jsRound
  rcases Nat.eq_zero_or_pos s with hs | hs
  · subst hs; simp
  · exact Nat.div_eq_of_lt (by omega)

theorem jsRound_mul_self (s k : ℕ) (hs : 0 < s) : jsRound (k * s) s = k := by
  unfold jsRound
  have h1 : 2 * (k * s) + s = s * (2 * k + 1) := by ring
  have h2 : 2 * s = s * 2 := by ring
  rw [h1, h2, Nat.mul_div_mul_left _ _ hs]
  omega

theorem cumTarget_last (m s : ℕ) (hs : 0 < s) : cumTarget m s s = m := by
  unfold cumTarget
  rw [Nat.mul_comm s m]
  exact jsRound_mul_self s m hs

theorem cumTarget_diag (s r : ℕ) (hs : 0 < s) : cumTarget s s r = r := by
  unfold cumTarget
  exact jsRound_mul_self s r hs

theorem cumTarget_succ (m s r : ℕ) (hs : 0 < s) :
    cumTarget m s (r + 1) = cumTarget m s r + m / s ∨
      cumTarget m s (r + 1) = cumTarget m s r + m / s + 1 := by
  unfold cumTarget jsRound
  have h1 : 2 * ((r + 1) * m) + s = (2 * (r * m) + s) + 2 * m := by ring
  rw [h1, Nat.add_div (by omega : 0 < 2 * s), Nat.mul_div_mul_left m s (by omega : 0 < 2)]
  split
  · right; rfl
  · left; rfl

theorem cumTarget_le_succ (m s r : ℕ) (hs : 0 < s) :
    cumTarget m s r ≤ cumTarget m s (r + 1) := by
  rcases cumTarget_succ m s r hs with h | h <;>
    (generalize m / s = q at h; omega)

theorem cumTarget_succ_le (m s r : ℕ) (hm : m ≤ s) (hs : 0 < s) :
    cumTarget m s (r + 1) ≤ cumTarget m s r + 1 := by
  rcases Nat.lt_or_ge m s with h | h
  · have h0 : m / s = 0 := Nat.div_eq_of_lt h
    rcases cumTarget_succ m s r hs with hc | hc <;> omega
  · have hms : m = s := Nat.le_antisymm hm h
    subst hms
    rw [cumTarget_diag m r hs, cumTarget_diag m (r + 1) hs]

theorem cumTarget_scale (g m s r : ℕ) (hg : 0 < g) :
    cumTarget (g * m) (g * s) r = cumTarget m s r := by
  unfold cumTarget jsRound
  have h1 : 2 * (r * (g * m)) + g * s = g * (2 * (r * m) + s) := by ring
  have h2 : 2 * (g * s) = g * (2 * s) := by ring
  rw [h1, h2, Nat.mul_div_mul_left _ _ hg]

theorem cumTarget_add_mul (m s k r : ℕ) (hs : 0 < s) :
    cumTarget m s (k * s + r) = k * m + cumTarget m s r := by
  unfold cumTarget jsRound
  have h1 : 2 * ((k * s + r) * m) + s = (2 * (r * m) + s) + (k * m) * (2 * s) := by ring
  rw [h1, Nat.add_mul_div_right _ _ (by omega : 0 < 2 * s)]
  omega

/-! ### Closed form of the distribution loop -/

theorem genEvenAux_closed (m s : ℕ) :
    ∀ fuel row, genEvenAux m s fuel row (cumTarget m s row) =
      (List.range fuel).map
        (fun j => (cumTarget m s (row + j + 1) : ℤ) - cumTarget m s (row + j)) := by
  intro fuel
  induction fuel with
  | zero => intro row; simp [genEvenAux]
  | succ f ih =>
    intro row
    have hcur : (jsRound ((row + 1) * m) s : ℕ) = cumTarget m s (row + 1) := rfl
    simp only [genEvenAux, hcur, ih (row + 1), List.range_succ_eq_map, List.map_cons,
      List.map_map]
    congr 1
    refine List.map_congr_left (fun j _ => ?_)
    simp only [Function.comp_apply, Nat.succ_eq_add_one]
    have e1 : row + 1 + j + 1 = row + (j + 1) + 1 := by omega
    have e2 : row + 1 + j = row + (j + 1) := by omega
    rw [e1, e2]

theorem generateEvenDistribution_closed (m s : ℕ) :
    generateEvenDistribution m s =
      (List.range s).map
        (fun j => (cumTarget m s (j + 1) : ℤ) - cumTarget m s j) := by
  unfold generateEvenDistribution
  have h0 : (0 : ℤ) = (cumTarget m s 0 : ℕ) := by rw [cumTarget_zero]; simp
  rw [h0, genEvenAux_closed m s s 0]
  simp

theorem sum_range_map_sub (f : ℕ → ℤ) :
    ∀ n, ((List.range n).map (fun j => f (j + 1) - f j)).sum = f n - f 0 := by
  intro n
  induction n with
  | zero => simp
  | succ k ih =>
    rw [List.range_succ, List.map_append, List.sum_append, ih]
    simp

theorem sum_generateEvenDistribution (m s : ℕ) (hs : 0 < s) :
    (generateEvenDistribution m s).sum = m := by
  rw [generateEvenDistribution_closed,
    sum_range_map_sub (fun j => (cumTarget m s j : ℤ)) s]
  rw [cumTarget_last m s hs, cumTarget_zero]
  simp

theorem mem_generateEvenDistribution (m s : ℕ) (hs : 0 < s) {x : ℤ}
    (hx : x ∈ generateEvenDistribution m s) :
    ((m / s : ℕ) : ℤ) ≤ x ∧ x ≤ ((m / s : ℕ) : ℤ) + 1 := by
  rw [generateEvenDistribution_closed] at hx
  rcases List.mem_map.1 hx with ⟨j, _, rfl⟩
  rcases cumTarget_succ m s j hs with h | h <;> rw [h] <;> push_cast <;> omega

/-! ### Periodicity: the distribution of a scaled pair is a repeated block -/

theorem range_mul_map_of_periodic (D : ℕ → ℤ) (n : ℕ)
    (hD : ∀ k r, D (k * n + r) = D r) :
    ∀ g, (List.range (g * n)).map D = (List.replicate g ((List.range n).map D)).flatten := by
  intro g
  induction g with
  | zero => simp
  | succ k ih =>
    have hkn : (k + 1) * n = k * n + n := by ring
    rw [hkn, List.range_add, List.map_append, ih, List.replicate_succ',
      List.flatten_append]
    congr 1
    rw [List.map_map]
    simp only [List.flatten_cons, List.flatten_nil, List.append_nil]
    refine List.map_congr_left (fun j _ => ?_)
    simp only [Function.comp_apply]
    exact hD k j

theorem generateEvenDistribution_scale (g m s : ℕ) (hg : 0 < g) (hs : 0 < s) :
    generateEvenDistribution (g * m) (g * s) =
      (List.replicate g (generateEvenDistribution m s)).flatten := by
  rw [generateEvenDistribution_closed (g * m) (g * s),
    generateEvenDistribution_closed m s]
  have hscale : ∀ r, cumTarget (g * m) (g * s) r = cumTarget m s r := fun r =>
    cumTarget_scale g m s r hg
  simp only [hscale]
  refine range_mul_map_of_periodic _ s (fun k r => ?_) g
  have h1 : k * s + r + 1 = k * s + (r + 1) := by omega
  rw [h1, cumTarget_add_mul m s k (r + 1) hs, cumTarget_add_mul m s k r hs]
  push_cast
  ring

/-! ### The Euclid loop on nonnegative integers computes `Nat.gcd` -/

theorem gcdAux_natCast :
    ∀ (fuel a b : ℕ), b < fuel → gcdAux fuel (a : ℤ) (b : ℤ) = (Nat.gcd a b : ℤ) := by
  intro fuel
  induction fuel with
  | zero => intro a b h; omega
  | succ f ih =>
    intro a b hb
    by_cases h : b = 0
    · subst h
      simp [gcdAux]
    · have hb0 : ((b : ℤ)) ≠ 0 := by exact_mod_cast h
      have htmod : Int.tmod (a : ℤ) (b : ℤ) = ((a % b : ℕ) : ℤ) :=
        (Int.ofNat_tmod a b).symm
      have hlt : a % b < f := by
        have := Nat.mod_lt a (Nat.pos_of_ne_zero h)
        omega
      simp only [gcdAux, if_neg hb0, htmod, ih b (a % b) hlt]
      have hgcd : Nat.gcd b (a % b) = Nat.gcd a b := by
        rw [Nat.gcd_comm a b, Nat.gcd_rec b a, Nat.gcd_comm]
      exact_mod_cast hgcd

theorem gcdInt_natCast (a b : ℕ) : gcdInt (a : ℤ) (b : ℤ) = (Nat.gcd a b : ℤ) := by
  unfold gcdInt
  have habs : ((b : ℤ)).natAbs = b := Int.natAbs_ofNat b
  rw [habs]
  exact gcdAux_natCast (b + 1) a b (by omega)

theorem gcdInt_of_nonneg {x y : ℤ} (hx : 0 ≤ x) (hy : 0 ≤ y) :
    gcdInt x y = (Nat.gcd x.toNat y.toNat : ℤ) := by
  conv_lhs => rw [← Int.toNat_of_nonneg hx, ← Int.toNat_of_nonneg hy]
  exact gcdInt_natCast x.toNat y.toNat

/-- Sanity of the `Math.round` model on `ℚ`: the floor-division formula on the
reduced fraction agrees with `⌊x + 1/2⌋`, which is exactly how JavaScript's
`Math.round` behaves on all finite inputs (halves round toward `+∞`). -/
theorem jsRoundQ_eq_floor (x : ℚ) : jsRoundQ x = ⌊x + 1 / 2⌋ := by
  have hden : ((x.den : ℚ)) ≠ 0 := by
    exact_mod_cast x.den_nz
  have h : (x.num : ℚ) = x * (x.den : ℚ) := by
    have h0 := Rat.num_div_den x
    rw [div_eq_iff hden] at h0
    exact h0
  have h2 : (((2 * x.den : ℕ)) : ℚ) ≠ 0 := by
    have : (0 : ℚ) < ((2 * x.den : ℕ) : ℚ) := by
      exact_mod_cast Nat.succ_le_of_lt (by have := x.pos; omega)
    exact ne_of_gt this
  have hx : x + 1 / 2 = (((2 * x.num + (x.den : ℤ) : ℤ) : ℚ)) / (((2 * x.den : ℕ) : ℚ)) := by
    rw [eq_div_iff h2]
    push_cast
    linear_combination (-2 : ℚ) * h
  rw [hx, Rat.floor_intCast_div_natCast]
  unfold jsRoundQ
  push_cast
  rfl

/-! ### Invariants of the run scan -/

theorem runScanAux_flatten :
    ∀ (xs : List ℤ) (cur : ℤ) (len : ℕ),
      ((runScanAux cur len xs).map (fun r => List.replicate r.rows r.stitches)).flatten =
        List.replicate len cur ++ xs := by
  intro xs
  induction xs with
  | nil => intro cur len; simp [runScanAux]
  | cons x xs ih =>
    intro cur len
    by_cases h : x = cur
    · subst h
      simp only [runScanAux, eq_self_iff_true, if_true]
      rw [ih x (len + 1), List.replicate_succ']
      simp
    · simp only [runScanAux, if_neg h, List.map_cons, List.flatten_cons, ih]
      simp

theorem runScanAux_sum_rows :
    ∀ (xs : List ℤ) (cur : ℤ) (len : ℕ),
      ((runScanAux cur len xs).map Run.rows).sum = len + xs.length := by
  intro xs
  induction xs with
  | nil => intro cur len; simp [runScanAux]
  | cons x xs ih =>
    intro cur len
    by_cases h : x = cur
    · simp only [runScanAux, if_pos h, ih]
      simp only [List.length_cons]
      omega
    · simp only [runScanAux, if_neg h, List.map_cons, List.sum_cons, ih]
      simp only [List.length_cons]
      omega

theorem runScanAux_head :
    ∀ (xs : List ℤ) (cur : ℤ) (len : ℕ),
      ∃ n t, runScanAux cur len xs = ⟨cur, n⟩ :: t := by
  intro xs
  induction xs with
  | nil => intro cur len; exact ⟨len, [], rfl⟩
  | cons x xs ih =>
    intro cur len
    by_cases h : x = cur
    · subst h
      simpa only [runScanAux, if_pos rfl] using ih x (len + 1)
    · exact ⟨len, runScanAux x 1 xs, by simp [runScanAux, if_neg h]⟩

theorem runScanAux_chain :
    ∀ (xs : List ℤ) (cur : ℤ) (len : ℕ),
      List.Chain' (fun a b : Run => a.stitches ≠ b.stitches) (runScanAux cur len xs) := by
  intro xs
  induction xs with
  | nil => intro cur len; simp [runScanAux]
  | cons x xs ih =>
    intro cur len
    by_cases h : x = cur
    · simpa only [runScanAux, if_pos h] using ih cur (len + 1)
    · simp only [runScanAux, if_neg h]
      obtain ⟨n, t, ht⟩ := runScanAux_head xs x 1
      rw [ht]
      refine List.chain'_cons.mpr ⟨?_, by rw [← ht]; exact ih x 1⟩
      simpa using fun hc => h hc.symm

/-! ### The boolean variant refines the integer variant when `items ≤ slots` -/

theorem genBoolAux_toInt (m s : ℕ) (hm : m ≤ s) (hs : 0 < s) :
    ∀ fuel row,
      (genBoolAux m s fuel row (cumTarget m s row)).map (fun b => if b then (1 : ℤ) else 0) =
        genEvenAux m s fuel row ((cumTarget m s row : ℕ) : ℤ) := by
  intro fuel
  induction fuel with
  | zero => intro row; simp [genBoolAux, genEvenAux]
  | succ f ih =>
    intro row
    have hcur : jsRound ((row + 1) * m) s = cumTarget m s (row + 1) := rfl
    have hle := cumTarget_le_succ m s row hs
    have hle1 := cumTarget_succ_le m s row hm hs
    simp only [genBoolAux, genEvenAux, hcur]
    by_cases h : cumTarget m s row < cumTarget m s (row + 1)
    · have heq : cumTarget m s (row + 1) = cumTarget m s row + 1 := by omega
      rw [if_pos h, List.map_cons]
      congr 1
      · have : ((cumTarget m s (row + 1) : ℕ) : ℤ) - ((cumTarget m s row : ℕ) : ℤ) = 1 := by
          rw [heq]; push_cast; ring
        rw [this]
        simp
      · have harg : cumTarget m s row + 1 = cumTarget m s (row + 1) := heq.symm
        rw [harg, ih (row + 1)]
    · have heq : cumTarget m s (row + 1) = cumTarget m s row := by omega
      rw [if_neg h, List.map_cons]
      congr 1
      · have : ((cumTarget m s (row + 1) : ℕ) : ℤ) - ((cumTarget m s row : ℕ) : ℤ) = 0 := by
          rw [heq]; ring
        rw [this]
        simp
      · rw [heq.symm]
        exact ih (row + 1)

theorem sum_map_boolToInt (l : List Bool) :
    ((l.map (fun b => if b then (1 : ℤ) else 0)).sum) = l.count true := by
  induction l with
  | nil => simp
  | cons x xs ih =>
    cases x
    · simp [List.count_cons, ih]
    · simp [List.count_cons, ih]
      omega

/-! ### Fields of `findMinimalRepeat` in terms of `Nat.gcd` -/

theorem findMinimalRepeat_repeats (a b : ℕ) :
    (findMinimalRepeat a b).repeats = Nat.gcd a b := by
  simp [findMinimalRepeat, gcdInt_natCast]

theorem findMinimalRepeat_cycleStitches (a b : ℕ) :
    (findMinimalRepeat a b).cycleStitches = a / Nat.gcd a b := by
  simp [findMinimalRepeat, gcdInt_natCast]

theorem findMinimalRepeat_cycleRows (a b : ℕ) :
    (findMinimalRepeat a b).cycleRows = b / Nat.gcd a b := by
  simp [findMinimalRepeat, gcdInt_natCast]

/-- Round of an integer-valued rational is the integer itself
(`Math.round` fixes integers). -/
theorem jsRoundQ_intCast (n : ℤ) : jsRoundQ ((n : ℤ) : ℚ) = n := by
  unfold jsRoundQ
  rw [Rat.num_intCast, Rat.den_intCast]
  omega

/-! ### The claims -/

/-- C1: Conservation — for every `items ≥ 0` and `slots > 0`, the entries of
`generateEvenDistribution items slots` sum to exactly `items`. -/
theorem evenDistribution_conservation (items slots : ℕ) (hs : 0 < slots) :
    (generateEvenDistribution items slots).sum = (items : ℤ) :=
  sum_generateEvenDistribution items slots hs

theorem evenDistribution_conservation_witness :
    0 < 8 ∧ (generateEvenDistribution 3 8).sum = ((3 : ℕ) : ℤ) :=
  ⟨by decide, evenDistribution_conservation 3 8 (by decide)⟩

/-- C2: Cycle invariant — for `items ≥ 1` and `slots ≥ 1`, the full
distribution equals the distribution of the reduced pair of
`findMinimalRepeat` concatenated with itself `repeats` times. -/
theorem evenDistribution_cycle_invariant (items slots : ℕ)
    (hi : 1 ≤ items) (hs : 1 ≤ slots) :
    generateEvenDistribution items slots =
      (List.replicate (findMinimalRepeat items slots).repeats
        (generateEvenDistribution (findMinimalRepeat items slots).cycleStitches
          (findMinimalRepeat items slots).cycleRows)).flatten := by
  rw [findMinimalRepeat_repeats, findMinimalRepeat_cycleStitches,
    findMinimalRepeat_cycleRows]
  have hgne : Nat.gcd items slots ≠ 0 := by
    rw [Ne, Nat.gcd_eq_zero_iff]
    omega
  have hgpos : 0 < Nat.gcd items slots := Nat.pos_of_ne_zero hgne
  have h1 : Nat.gcd items slots * (items / Nat.gcd items slots) = items :=
    Nat.mul_div_cancel' (Nat.gcd_dvd_left items slots)
  have h2 : Nat.gcd items slots * (slots / Nat.gcd items slots) = slots :=
    Nat.mul_div_cancel' (Nat.gcd_dvd_right items slots)
  have hcs : 0 < slots / Nat.gcd items slots :=
    Nat.div_pos (Nat.le_of_dvd hs (Nat.gcd_dvd_right items slots)) hgpos
  calc generateEvenDistribution items slots
      = generateEvenDistribution (Nat.gcd items slots * (items / Nat.gcd items slots))
          (Nat.gcd items slots * (slots / Nat.gcd items slots)) := by rw [h1, h2]
    _ = _ := generateEvenDistribution_scale (Nat.gcd items slots)
          (items / Nat.gcd items slots) (slots / Nat.gcd items slots) hgpos hcs

theorem evenDistribution_cycle_invariant_witness :
    1 ≤ 4 ∧ 1 ≤ 6 ∧
    generateEvenDistribution 4 6 =
      (List.replicate (findMinimalRepeat 4 6).repeats
        (generateEvenDistribution (findMinimalRepeat 4 6).cycleStitches
          (findMinimalRepeat 4 6).cycleRows)).flatten :=
  ⟨by decide, by decide, evenDistribution_cycle_invariant 4 6 (by decide) (by decide)⟩

/-- C3: Evenness — for `items ≥ 0`, `slots > 0`, any two entries of
`generateEvenDistribution items slots` differ by at most 1 (in particular the
maximum minus the minimum entry is at most 1), also when `items > slots`. -/
theorem evenDistribution_evenness (items slots : ℕ) (hs : 0 < slots) :
    ∀ a ∈ generateEvenDistribution items slots,
      ∀ b ∈ generateEvenDistribution items slots, a - b ≤ 1 := by
  intro a ha b hb
  have h1 := mem_generateEvenDistribution items slots hs ha
  have h2 := mem_generateEvenDistribution items slots hs hb
  omega

theorem evenDistribution_evenness_witness :
    0 < 8 ∧ (1 : ℤ) ∈ generateEvenDistribution 3 8 ∧
      (0 : ℤ) ∈ generateEvenDistribution 3 8 ∧ (1 : ℤ) - 0 ≤ 1 :=
  ⟨by decide, by decide, by decide,
    evenDistribution_evenness 3 8 (by decide) 1 (by decide) 0 (by decide)⟩

/-- C4 (counterexample): the claimed trace `distribute(3, 8) = [0,1,0,0,1,0,0,1]`
is not what the cumulative-rounding rule produces. -/
theorem evenDistribution_trace_claim_counterexample :
    generateEvenDistribution 3 8 ≠ ([0, 1, 0, 0, 1, 0, 0, 1] : List ℤ) := by
  decide

/-- C4 (amended): `generateEvenDistribution 3 8`, computed by the cumulative
rule `expected = round((i+1)·items/slots)`, `count = expected − placedSoFar`,
returns exactly `[0,1,0,1,0,0,1,0]` (cumulative targets 0,1,1,2,2,2,3,3). -/
theorem evenDistribution_trace_amended :
    generateEvenDistribution 3 8 = ([0, 1, 0, 1, 0, 0, 1, 0] : List ℤ) := by
  decide

/-- C5: the repeat-cycle reducer contract — for `slots > 0`,
`findMinimalRepeat` returns `cycleStitches = items / g`, `cycleRows = slots / g`
and `repeats = g` for `g = gcd(items, slots)`, the reduced pair is coprime, and
on `(6, 16)` it returns `(3, 8, 2)`. -/
theorem findMinimalRepeat_contract :
    (∀ items slots : ℕ, 0 < slots →
      (findMinimalRepeat items slots).cycleStitches = items / Nat.gcd items slots ∧
      (findMinimalRepeat items slots).cycleRows = slots / Nat.gcd items slots ∧
      (findMinimalRepeat items slots).repeats = Nat.gcd items slots ∧
      Nat.Coprime (findMinimalRepeat items slots).cycleStitches
        (findMinimalRepeat items slots).cycleRows) ∧
    (findMinimalRepeat 6 16).cycleStitches = 3 ∧
    (findMinimalRepeat 6 16).cycleRows = 8 ∧
    (findMinimalRepeat 6 16).repeats = 2 := by
  refine ⟨fun items slots hs => ?_, by decide, by decide, by decide⟩
  have hgne : Nat.gcd items slots ≠ 0 := by
    rw [Ne, Nat.gcd_eq_zero_iff]
    omega
  refine ⟨findMinimalRepeat_cycleStitches items slots,
    findMinimalRepeat_cycleRows items slots, findMinimalRepeat_repeats items slots, ?_⟩
  rw [findMinimalRepeat_cycleStitches, findMinimalRepeat_cycleRows]
  exact Nat.coprime_div_gcd_div_gcd (Nat.pos_of_ne_zero hgne)

theorem findMinimalRepeat_contract_witness :
    0 < 16 ∧
    ((findMinimalRepeat 6 16).cycleStitches = 6 / Nat.gcd 6 16 ∧
      (findMinimalRepeat 6 16).cycleRows = 16 / Nat.gcd 6 16 ∧
      (findMinimalRepeat 6 16).repeats = Nat.gcd 6 16 ∧
      Nat.Coprime (findMinimalRepeat 6 16).cycleStitches
        (findMinimalRepeat 6 16).cycleRows) :=
  ⟨by decide, findMinimalRepeat_contract.1 6 16 (by decide)⟩

/-- C6: Run reconstruction — for every non-empty sequence, the run list of the
source's run scan partitions the sequence: run lengths sum to the sequence
length, concatenating each run's value repeated its length reproduces the
sequence, and adjacent runs never share a value. -/
theorem describeRuns_reconstruction (l : List ℤ) (hl : l ≠ []) :
    ((describeRuns l).map Run.rows).sum = l.length ∧
    ((describeRuns l).map (fun r => List.replicate r.rows r.stitches)).flatten = l ∧
    List.Chain' (fun a b : Run => a.stitches ≠ b.stitches) (describeRuns l) := by
  cases l with
  | nil => exact absurd rfl hl
  | cons x xs =>
    refine ⟨?_, ?_, ?_⟩
    · simp only [describeRuns]
      rw [runScanAux_sum_rows xs x 1]
      simp only [List.length_cons]
      omega
    · simp only [describeRuns]
      rw [runScanAux_flatten xs x 1]
      simp
    · simp only [describeRuns]
      exact runScanAux_chain xs x 1

theorem describeRuns_reconstruction_witness :
    (([0, 1, 1] : List ℤ) ≠ []) ∧
    (((describeRuns [0, 1, 1]).map Run.rows).sum = ([0, 1, 1] : List ℤ).length ∧
      ((describeRuns [0, 1, 1]).map (fun r => List.replicate r.rows r.stitches)).flatten =
        [0, 1, 1] ∧
      List.Chain' (fun a b : Run => a.stitches ≠ b.stitches) (describeRuns [0, 1, 1])) :=
  ⟨by decide, describeRuns_reconstruction [0, 1, 1] (by decide)⟩

/-- C7: whenever the distribution's run encoding is a single run of value 1
and length `L`, the rendered instruction is
`"Pick up 1 from each of L row(s)"` with the `"s"` exactly for `L ≠ 1`; in
particular `distribute(5, 5)` (all slots 1, a single run of length 5) renders
as `"Pick up 1 from each of 5 rows"`. -/
theorem singleRunOne_description :
    (∀ (items slots L : ℕ),
      describeRuns (generateEvenDistribution items slots) = [⟨1, L⟩] →
      describeSequences (describeRuns (generateEvenDistribution items slots)) =
        "Pick up 1 from each of " ++ toString L ++ " row" ++
          (if L = 1 then "" else "s")) ∧
    describeSequences (describeRuns (generateEvenDistribution 5 5)) =
      "Pick up 1 from each of 5 rows" := by
  constructor
  · intro items slots L h
    rw [h]
    by_cases hL : L = 1
    · subst hL
      simp [describeSequences, plural]
    · simp [describeSequences, plural, hL]
  · decide

theorem singleRunOne_description_witness :
    describeRuns (generateEvenDistribution 5 5) = [⟨1, 5⟩] ∧
    describeSequences (describeRuns (generateEvenDistribution 5 5)) =
      "Pick up 1 from each of " ++ toString 5 ++ " row" ++
        (if 5 = 1 then "" else "s") :=
  ⟨by decide, singleRunOne_description.1 5 5 5 (by decide)⟩

/-- C9 (counterexample): on the inputs `4` and `-6` (both integers, neither
rounding to 0) the source's `gcd` returns `-2`, not the positive greatest
common divisor `2` of the rounded magnitudes. -/
theorem gcd_negative_counterexample :
    gcdQ 4 (-6) = -2 ∧ Nat.gcd 4 6 = 2 := by
  constructor
  · decide
  · decide

/-- C9 (amended): when both inputs round to nonnegative integers, not both 0,
`gcd` first rounds its inputs and then returns the greatest common divisor of
the rounded values — a positive integer (so in particular `gcd(a, 0)` is the
rounding of `a`). For inputs rounding to a negative integer the returned value
can be negative (see the counterexample). -/
theorem gcd_rounded_contract (a b : ℚ)
    (ha : 0 ≤ jsRoundQ a) (hb : 0 ≤ jsRoundQ b)
    (hab : jsRoundQ a ≠ 0 ∨ jsRoundQ b ≠ 0) :
    gcdQ a b = (Nat.gcd (jsRoundQ a).toNat (jsRoundQ b).toNat : ℤ) ∧
      0 < gcdQ a b := by
  have h2 : gcdQ a b = (Nat.gcd (jsRoundQ a).toNat (jsRoundQ b).toNat : ℤ) :=
    gcdInt_of_nonneg ha hb
  refine ⟨h2, ?_⟩
  rw [h2]
  have hne : Nat.gcd (jsRoundQ a).toNat (jsRoundQ b).toNat ≠ 0 := by
    rw [Ne, Nat.gcd_eq_zero_iff]
    omega
  exact_mod_cast Nat.pos_of_ne_zero hne

theorem gcd_rounded_contract_witness :
    0 ≤ jsRoundQ 5 ∧ 0 ≤ jsRoundQ 0 ∧ (jsRoundQ 5 ≠ 0 ∨ jsRoundQ 0 ≠ 0) ∧
    (gcdQ 5 0 = (Nat.gcd (jsRoundQ 5).toNat (jsRoundQ 0).toNat : ℤ) ∧
      0 < gcdQ 5 0) :=
  ⟨by decide, by decide, by decide,
    gcd_rounded_contract 5 0 (by decide) (by decide) (by decide)⟩

/-- C10: for `items ≤ slots` the boolean and the integer generator produce the
same placement under `true ↔ 1`, `false ↔ 0`, and the boolean variant places
exactly `items` `true` entries; for `items > slots` the two diverge (the
boolean variant caps each slot at one item), witnessed at `(2, 1)`. -/
theorem boolVariant_refines_intVariant :
    (∀ items slots : ℕ, items ≤ slots →
      ((generateEvenDistributionB items slots).map (fun b => if b then (1 : ℤ) else 0) =
        generateEvenDistribution items slots) ∧
      (generateEvenDistributionB items slots).count true = items) ∧
    (generateEvenDistributionB 2 1).map (fun b => if b then (1 : ℤ) else 0) ≠
      generateEvenDistribution 2 1 := by
  constructor
  · intro items slots hle
    rcases Nat.eq_zero_or_pos slots with hs | hs
    · subst hs
      have hi : items = 0 := by omega
      subst hi
      constructor <;>
        simp [generateEvenDistributionB, generateEvenDistribution, genBoolAux, genEvenAux]
    · have hmap : (generateEvenDistributionB items slots).map
          (fun b => if b then (1 : ℤ) else 0) = generateEvenDistribution items slots := by
        unfold generateEvenDistributionB generateEvenDistribution
        have h := genBoolAux_toInt items slots hle hs slots 0
        rw [cumTarget_zero items slots] at h
        simpa using h
      refine ⟨hmap, ?_⟩
      have hsum := sum_generateEvenDistribution items slots hs
      rw [← hmap, sum_map_boolToInt] at hsum
      exact_mod_cast hsum
  · decide

theorem boolVariant_refines_intVariant_witness :
    3 ≤ 8 ∧
    (((generateEvenDistributionB 3 8).map (fun b => if b then (1 : ℤ) else 0) =
        generateEvenDistribution 3 8) ∧
      (generateEvenDistributionB 3 8).count true = 3) :=
  ⟨by decide, boolVariant_refines_intVariant.1 3 8 (by decide)⟩

/-- C8 (counterexample): in the `part_000` variant the pickup flow invokes the
distribution engine even when the computed pick-up count reaches or exceeds
the row count: with all gauges 1 and the pattern instruction "2 per 1 row"
over 4 rows, the computed count is 8 ≥ 4 and the flow succeeds with `(8, 4)`
instead of surfacing an error. -/
theorem pickup_overflow_counterexample :
    calculatePickupFlow0 1 1 1 1 2 1 4 = .ok (8, 4) ∧ 4 ≤ 8 := by
  constructor
  · unfold calculatePickupFlow0 calculateAdjustedPickupRatio
    norm_num
    rw [show jsRoundQ (8 : ℚ) = (8 : ℤ) from by decide]
    norm_num
    decide
  · decide

/-- C8 (amended): only the `part_001` variant guards the relationship — there,
whenever the computed pick-up count reaches the row count the flow stops with
a user-facing error, so the distribution engine is only ever invoked with
`items < slots`; the `part_000` variant rejects merely counts below 1 and
otherwise invokes the engine even with `items ≥ slots`. -/
theorem pickup_overflow_guard_flow1
    (personalGaugeH personalGaugeV patternGaugeH patternGaugeV : ℚ)
    (patternStitches patternRows totalRows : ℕ) (items slots : ℕ)
    (h : calculatePickupFlow1 personalGaugeH personalGaugeV patternGaugeH patternGaugeV
        patternStitches patternRows totalRows = .ok (items, slots)) :
    items < slots := by
  unfold calculatePickupFlow1 at h
  split at h
  · exact absurd h (by simp)
  split at h
  · exact absurd h (by simp)
  split at h
  · exact absurd h (by simp)
  dsimp only at h
  split at h
  · exact absurd h (by simp)
  split at h
  · exact absurd h (by simp)
  simp only [Except.ok.injEq, Prod.mk.injEq] at h
  omega

theorem pickup_overflow_guard_flow1_witness :
    calculatePickupFlow1 1 1 1 1 1 2 4 = .ok (2, 4) ∧ 2 < 4 := by
  have hok : calculatePickupFlow1 1 1 1 1 1 2 4 = .ok (2, 4) := by
    unfold calculatePickupFlow1 calculateAdjustedPickupRatio
    norm_num
    rw [show jsRoundQ (2 : ℚ) = (2 : ℤ) from by decide]
    norm_num
    decide
  exact ⟨hok, pickup_overflow_guard_flow1 1 1 1 1 1 2 4 2 4 hok⟩

end Knitit
